import Mathlib

/-!
Verification development for the PAI voice-notification daemon
(Packs/pai-voice-system/src/VoiceServer).  The TypeScript sources are
shallowly embedded: string-processing routines become functions on
`List Char`, the per-key rate limiter becomes a fold over request
timestamps, the HTTP dispatch and TTS fallback become pure functions over
an abstract engine environment, and the progressive playback pipeline of
qwen3-tts.ts becomes a small-step transition system over its state
variables.
-/

/-! ## Character classes (JavaScript regex `\s` and `String.prototype.trim`) -/

/-- The whitespace class used by the JavaScript `\s` regex escape and by
`String.prototype.trim` (ASCII whitespace plus the Unicode space
separators, LS, PS, NBSP, and the BOM). -/
def isJsWs (c : Char) : Bool :=
  let n := c.toNat
  n == 9 || n == 10 || n == 11 || n == 12 || n == 13 || n == 32 ||
  n == 160 || n == 5760 || (Nat.ble 8192 n && Nat.ble n 8202) ||
  n == 8232 || n == 8233 || n == 8239 || n == 8287 || n == 12288 || n == 65279

/-- Sentence terminators of the qwen3 sentence splitter: the class `[.!?]`. -/
def isTerm (c : Char) : Bool :=
  c == '.' || c == '!' || c == '?'

/-- The backquote character (code 96), written via its code point. -/
def backquoteChar : Char := Char.ofNat 96

/-- Shell metacharacters removed by sanitizeForSpeech, the regex class
containing semicolon, ampersand, pipe, angle brackets, backquote, dollar
and backslash (server.ts:168). -/
def isShellMeta (c : Char) : Bool :=
  c == ';' || c == '&' || c == '|' || c == '>' || c == '<' ||
  c == backquoteChar || c == '$' || c == '\\'

/-- JavaScript `String.prototype.trim`: drop leading and trailing
whitespace. -/
def jsTrim (l : List Char) : List Char :=
  ((l.dropWhile isJsWs).reverse.dropWhile isJsWs).reverse

/-! ## sanitizeForSpeech (server.ts:164-176)

Each `replace` with a global regex is embedded as a left-to-right
non-overlapping scan that restarts after the matched text, exactly as the
JavaScript engine behaves for these patterns. -/

/-- Does the list start with a case-insensitive match of the literal
`<script` (the pattern of server.ts:166)? -/
def startsWithScriptCI : List Char → Bool
  | c0 :: c1 :: c2 :: c3 :: c4 :: c5 :: c6 :: _ =>
    c0 == '<' && (c1 == 's' || c1 == 'S') && (c2 == 'c' || c2 == 'C') &&
    (c3 == 'r' || c3 == 'R') && (c4 == 'i' || c4 == 'I') &&
    (c5 == 'p' || c5 == 'P') && (c6 == 't' || c6 == 'T')
  | _ => false

/-- server.ts:166 — `.replace(/<script/gi, '')`. -/
def removeScriptTags : List Char → List Char
  | [] => []
  | c :: cs =>
    if startsWithScriptCI (c :: cs) then removeScriptTags (cs.drop 6)
    else c :: removeScriptTags cs
termination_by l => l.length
decreasing_by
  · simp only [List.length_cons, List.length_drop]; omega
  · simp only [List.length_cons]; omega

/-- server.ts:167 — `.replace(/\.\.\//g, '')` (single pass, no rescan of
the produced text, as JavaScript does). -/
def removeDotDotSlash : List Char → List Char
  | [] => []
  | c :: cs =>
    if (c :: cs).take 3 = ['.', '.', '/'] then removeDotDotSlash (cs.drop 2)
    else c :: removeDotDotSlash cs
termination_by l => l.length
decreasing_by
  · simp only [List.length_cons, List.length_drop]; omega
  · simp only [List.length_cons]; omega

/-- server.ts:168 — removal of every shell metacharacter. -/
def removeShellMeta (l : List Char) : List Char :=
  l.filter (fun c => !(isShellMeta c))

/-- server.ts:169 — `.replace(/\*\*([^*]+)\*\*/g, '$1')`: unwrap a pair of
double asterisks around a nonempty run of non-asterisk characters, keep
the inner text, continue after the match; on failure advance one
character. -/
def unwrapBold : List Char → List Char
  | [] => []
  | '*' :: '*' :: rest =>
    if rest.takeWhile (fun c => c != '*') ≠ [] ∧
        (rest.dropWhile (fun c => c != '*')).take 2 = ['*', '*'] then
      rest.takeWhile (fun c => c != '*') ++
        unwrapBold ((rest.dropWhile (fun c => c != '*')).drop 2)
    else
      '*' :: unwrapBold ('*' :: rest)
  | c :: cs => c :: unwrapBold cs
termination_by l => l.length
decreasing_by
  · have h1 := (List.dropWhile_sublist (l := rest) (fun c => c != '*')).length_le
    simp only [List.length_cons, List.length_drop]; omega
  · simp only [List.length_cons]; omega
  · simp only [List.length_cons]; omega

/-- server.ts:170-171 — `.replace(/\*([^*]+)\*/g, '$1')` and the identical
backquote pattern of line 171, parametrised by the delimiter. -/
def unwrapDelim (d : Char) : List Char → List Char
  | [] => []
  | c :: cs =>
    if c = d then
      if cs.takeWhile (fun x => x != d) ≠ [] ∧
          (cs.dropWhile (fun x => x != d)).take 1 = [d] then
        cs.takeWhile (fun x => x != d) ++
          unwrapDelim d ((cs.dropWhile (fun x => x != d)).drop 1)
      else
        c :: unwrapDelim d cs
    else c :: unwrapDelim d cs
termination_by l => l.length
decreasing_by
  · have h1 := (List.dropWhile_sublist (l := cs) (fun x => x != d)).length_le
    simp only [List.length_cons, List.length_drop]; omega
  · simp only [List.length_cons]; omega
  · simp only [List.length_cons]; omega

/-- server.ts:172 — `.replace(/#{1,6}\s+/g, '')`: at a position whose
maximal run of hashes has length between 1 and 6 and is followed by
whitespace, drop the run together with the maximal whitespace run after
it; otherwise advance one character. -/
def removeHeadingMarks : List Char → List Char
  | [] => []
  | c :: cs =>
    if c = '#' then
      if ((c :: cs).takeWhile (fun x => x == '#')).length ≤ 6 ∧
          ((c :: cs).dropWhile (fun x => x == '#')).takeWhile isJsWs ≠ [] then
        removeHeadingMarks (((c :: cs).dropWhile (fun x => x == '#')).dropWhile isJsWs)
      else c :: removeHeadingMarks cs
    else c :: removeHeadingMarks cs
termination_by l => l.length
decreasing_by
  · have h2 := (List.dropWhile_sublist (l := (c :: cs).dropWhile (fun x => x == '#')) isJsWs).length_le
    have h3 : ((c :: cs).dropWhile (fun x => x == '#')).length < (c :: cs).length := by
      have he : (c :: cs).dropWhile (fun x => x == '#') = cs.dropWhile (fun x => x == '#') := by
        simp [List.dropWhile_cons, *]
      rw [he]
      have := (List.dropWhile_sublist (l := cs) (fun x => x == '#')).length_le
      simp only [List.length_cons]; omega
    omega
  · simp only [List.length_cons]; omega
  · simp only [List.length_cons]; omega

/-- server.ts:164-176 — the full sanitisation pass: strip `<script`, strip
`../`, strip shell metacharacters, unwrap double-asterisk, asterisk and
backquote markup, strip heading markers, trim, truncate to 500
characters. -/
def sanitizeForSpeech (l : List Char) : List Char :=
  (jsTrim (removeHeadingMarks (unwrapDelim backquoteChar (unwrapDelim '*'
    (unwrapBold (removeShellMeta (removeDotDotSlash (removeScriptTags l)))))))).take 500

/-- Error text of server.ts:183. -/
def msgTooLong : String := "Message too long (max 500 characters)"

/-- Error text of server.ts:187. -/
def msgEmpty : String := "Message contains no valid content after sanitization"

/-- server.ts:178-190 — validateInput on a string input: reject when the
raw input length exceeds 500, otherwise sanitise and reject when the
result is empty, otherwise accept with the sanitised text. -/
def validateInput (l : List Char) : Except String (List Char) :=
  if 500 < l.length then .error msgTooLong
  else
    let sanitized := sanitizeForSpeech l
    if sanitized.length = 0 then .error msgEmpty
    else .ok sanitized

/-! ## splitIntoSentences (qwen3-tts.ts:85-95)

The global regex match of the pattern alternation
(nonterminator run, terminator run, whitespace-or-end) or
(trailing nonterminator run) is embedded as a leftmost scan: tryMatchAt
attempts a match at the current position, matchAll advances one character
when no alternative matches there, exactly as the JavaScript engine
behaves for this pattern. -/

/-- One match attempt of the sentence pattern at the head of the list.
Returns the matched text and the remaining input, or none when neither
alternative matches here.  The first alternative consumes a nonempty
nonterminator run, a nonempty terminator run, and then a single
whitespace character or end of input; the second consumes a nonempty
nonterminator run that reaches the end of input. -/
def tryMatchAt (l : List Char) : Option (List Char × List Char) :=
  let run := l.takeWhile (fun c => !(isTerm c))
  let r1 := l.dropWhile (fun c => !(isTerm c))
  if run = [] then none
  else
    let terms := r1.takeWhile isTerm
    let r2 := r1.dropWhile isTerm
    if terms = [] then
      -- the run reaches the end of the input: second alternative
      some (run, [])
    else
      match r2 with
      | [] => some (run ++ terms, [])
      | c :: rest => if isJsWs c then some (run ++ terms ++ [c], rest) else none

/-- The first element rejected by dropWhile fails the predicate. -/
theorem dropWhile_head_false {α : Type} (p : α → Bool) (l : List α) (x : α) (xs : List α)
    (h : l.dropWhile p = x :: xs) : p x = false := by
  induction l with
  | nil => simp at h
  | cons a as ih =>
    rw [List.dropWhile_cons] at h
    by_cases hp : p a
    · rw [if_pos hp] at h; exact ih h
    · rw [if_neg hp] at h
      cases h
      simpa using hp

/-- A successful tryMatchAt splits the input and the match is nonempty. -/
theorem tryMatchAt_eq (l m rest : List Char) (h : tryMatchAt l = some (m, rest)) :
    l = m ++ rest ∧ m ≠ [] := by
  unfold tryMatchAt at h
  set run := l.takeWhile (fun c => !(isTerm c)) with hrun
  set r1 := l.dropWhile (fun c => !(isTerm c)) with hr1
  have hsplit1 : run ++ r1 = l := List.takeWhile_append_dropWhile _ _
  by_cases h0 : run = []
  · simp [h0] at h
  · rw [if_neg h0] at h
    set terms := r1.takeWhile isTerm with hterms
    set r2 := r1.dropWhile isTerm with hr2
    have hsplit2 : terms ++ r2 = r1 := List.takeWhile_append_dropWhile _ _
    by_cases h1 : terms = []
    · rw [if_pos h1] at h
      simp only [Option.some.injEq, Prod.mk.injEq] at h
      obtain ⟨hm, hrest⟩ := h
      have hr1nil : r1 = [] := by
        cases hr1v : r1 with
        | nil => rfl
        | cons x xs =>
          have hx := dropWhile_head_false _ l x xs (hr1 ▸ hr1v)
          have hxterm : isTerm x = true := by simpa using hx
          rw [hterms, hr1v] at h1
          simp [List.takeWhile_cons, hxterm] at h1
      constructor
      · rw [← hm, ← hrest]
        rw [hr1nil] at hsplit1
        simpa using hsplit1.symm
      · rw [← hm]; exact h0
    · rw [if_neg h1] at h
      cases hr2v : r2 with
      | nil =>
        rw [hr2v] at h
        simp only [Option.some.injEq, Prod.mk.injEq] at h
        obtain ⟨hm, hrest⟩ := h
        constructor
        · rw [← hm, ← hrest]
          rw [hr2v] at hsplit2
          simp only [List.append_nil] at hsplit2 ⊢
          rw [hsplit2]; exact hsplit1.symm
        · rw [← hm]; simp [h0]
      | cons x xs =>
        rw [hr2v] at h
        dsimp only at h
        by_cases hws : isJsWs x
        · rw [if_pos hws] at h
          simp only [Option.some.injEq, Prod.mk.injEq] at h
          obtain ⟨hm, hrest⟩ := h
          constructor
          · rw [← hm, ← hrest]
            have : run ++ terms ++ x :: xs = l := by
              rw [← hsplit1, ← hsplit2, hr2v]
              simp [List.append_assoc]
            rw [← this]
            simp [List.append_assoc]
          · rw [← hm]; simp [h0]
        · rw [if_neg hws] at h; cases h

/-- All matches of the sentence pattern, scanning left to right and
restarting after each match. -/
def matchAllSentences : List Char → List (List Char)
  | [] => []
  | c :: cs =>
    match h : tryMatchAt (c :: cs) with
    | some (m, rest) => m :: matchAllSentences rest
    | none => matchAllSentences cs
termination_by l => l.length
decreasing_by
  · obtain ⟨hlen, hne⟩ := tryMatchAt_eq _ _ _ h
    have h1 : 1 ≤ m.length := by
      cases m with
      | nil => exact absurd rfl hne
      | cons _ _ => simp
    have h2 := congrArg List.length hlen
    simp only [List.length_cons, List.length_append] at h2 ⊢
    omega
  · simp only [List.length_cons]; omega

/-- qwen3-tts.ts:85-95 — split text into sentences: collect the regex
matches; when there are none return the whole text as a single element;
otherwise trim each match and drop the empty ones. -/
def splitIntoSentences (l : List Char) : List (List Char) :=
  let sentences := matchAllSentences l
  if sentences = [] then [l]
  else (sentences.map jsTrim).filter (fun s => s ≠ [])

/-- Concatenate sentences with single spaces (the round-trip operation of
the specification). -/
def joinWithSpaces : List (List Char) → List Char
  | [] => []
  | [s] => s
  | s :: rest => s ++ ' ' :: joinWithSpaces rest

/-- The characters of a list that are neither whitespace nor sentence
terminators: the content that the round-trip claim says is preserved. -/
def coreContent (l : List Char) : List Char :=
  l.filter (fun c => !(isJsWs c) && !(isTerm c))

/-- The sentences `ss` occur in `t` as disjoint contiguous substrings, in
order. -/
def chunksInOrder : List (List Char) → List Char → Prop
  | [], _ => True
  | s :: ss, t => ∃ pre post, t = pre ++ s ++ post ∧ chunksInOrder ss post

/-! ## Rate limiting (server.ts:513-532)

The per-client record stored in the requestCounts map.  checkRateLimit is
the body of the function for one client key; runRateLimiter folds it over
the timestamps of the requests of that key, in arrival order. -/

/-- One cell of the requestCounts map: request counter and window reset
deadline (milliseconds). -/
structure RLRecord where
  count : Nat
  resetTime : Nat
  deriving DecidableEq, Repr

/-- server.ts:514-515. -/
def RATE_LIMIT : Nat := 10
def RATE_WINDOW : Nat := 60000

/-- server.ts:517-532 — checkRateLimit for one client: given the current
time and the stored record (none when the map has no entry), return
whether the request is admitted together with the updated record. -/
def checkRateLimit (now : Nat) (record : Option RLRecord) : Bool × RLRecord :=
  match record with
  | none => (true, ⟨1, now + RATE_WINDOW⟩)
  | some r =>
    if r.resetTime < now then (true, ⟨1, now + RATE_WINDOW⟩)
    else if RATE_LIMIT ≤ r.count then (false, r)
    else (true, ⟨r.count + 1, r.resetTime⟩)

/-- Run the rate limiter over a list of request times (arrival order) for
one client key, recording for each request whether it was admitted and
the reset deadline of the window it was counted against. -/
def runRateLimiter : List Nat → Option RLRecord → List (Bool × Nat)
  | [], _ => []
  | t :: ts, st =>
    let step := checkRateLimit t st
    (step.1, step.2.resetTime) :: runRateLimiter ts (some step.2)

/-- The times of the admitted requests, given the request times of one
client key. -/
def admittedTimes (ts : List Nat) : List Nat :=
  (List.zip ts (runRateLimiter ts none)).filterMap
    (fun p => if p.2.1 then some p.1 else none)

/-- How many admitted requests were counted against the limiter window
whose reset deadline is w. -/
def windowAdmissions (w : Nat) (l : List (Bool × Nat)) : Nat :=
  l.countP (fun p => p.1 && p.2 == w)

/-! ## Local TTS engines and runtime dispatch (engine-selection.ts, server.ts:379-397)

Engine side effects are abstracted into an environment recording, for each
local engine, whether invoking it succeeds or throws (and with which
message); the cloud path likewise.  dispatchLocalTTS then mirrors the
switch of server.ts:381-397, and processNotificationVoice the
try/catch/fallback of server.ts:403-457. -/

/-- engine-selection.ts:19 — the closed set of local TTS engines. -/
inductive LocalTTSEngine where
  | piper
  | qwen3
  | osTts
  deriving DecidableEq, Repr

/-- Outcome environment: the result (success or thrown error message) of
invoking each local engine on the current message. -/
structure LocalEnv where
  piper : Except String Unit
  qwen3 : Except String Unit
  osTts : Except String Unit

/-- server.ts:381-397 — dispatchLocalTTS: a switch on the engine cached at
startup; exactly that one engine is invoked. -/
def dispatchLocalTTS (sel : LocalTTSEngine) (env : LocalEnv) : Except String Unit :=
  match sel with
  | .piper => env.piper
  | .qwen3 => env.qwen3
  | .osTts => env.osTts

/-- engine-selection.ts:44-59 — selectLocalTTSEngine: explicit preference
first (falling through with a warning when unavailable), then
auto-detection in the fixed order piper, qwen3, os-tts. -/
def selectLocalTTSEngine (pref : String) (piperAvail qwenAvail : Bool) : LocalTTSEngine :=
  if pref = "piper" ∧ piperAvail then .piper
  else if pref = "qwen3" ∧ qwenAvail then .qwen3
  else if piperAvail then .piper
  else if qwenAvail then .qwen3
  else .osTts

/-- What processNotificationVoice did: whether the queued item resolved,
the outcome of the primary path, and the outcome of the fallback attempt
when one was made. -/
structure ProcessTrace where
  resolved : Bool
  primaryAttempt : Except String Unit
  fallbackAttempt : Option (Except String Unit)

/-- server.ts:403-457 — processNotificationVoice: the primary path is the
cloud engine when the API key is configured and dispatchLocalTTS
otherwise; on an exception the catch block invokes dispatchLocalTTS once
more, and a failure of that retry is logged and swallowed, so the
function always returns normally. -/
def processNotificationVoice (hasApiKey : Bool) (cloud : Except String Unit)
    (sel : LocalTTSEngine) (env : LocalEnv) : ProcessTrace :=
  let primary := if hasApiKey then cloud else dispatchLocalTTS sel env
  match primary with
  | .ok _ => ⟨true, primary, none⟩
  | .error _ => ⟨true, primary, some (dispatchLocalTTS sel env)⟩

/-- Modelled from the specification sentence of section 4.4: the claimed
fallback behaviour, in which the chain neural-cpu (piper), neural-gpu
(qwen3), os-tts is tried engine by engine until one succeeds.  This
definition follows the words of the specification (for comparison with
dispatchLocalTTS); the source has no such chain at runtime. -/
def fallbackChainPerSpec (env : LocalEnv) : Except String Unit :=
  match env.piper with
  | .ok _ => .ok ()
  | .error _ =>
    match env.qwen3 with
    | .ok _ => .ok ()
    | .error _ => env.osTts

/-! ## Prosody, volume and audio playback (elevenlabs-tts.ts, server.ts:262-310)

Volumes are JavaScript numbers compared against 0 and 1; they are
embedded as rationals (the comparisons are exact for every representable
non-NaN value, and a NaN request volume fails the range test exactly as
in the source). -/

/-- elevenlabs-tts.ts:14-21 — ProsodySettings. -/
structure ProsodySettings where
  stability : ℚ
  similarity_boost : ℚ
  style : ℚ
  speed : ℚ
  use_speaker_boost : Bool
  volume : Option ℚ
  deriving DecidableEq, Repr

/-- elevenlabs-tts.ts:44-50 — DEFAULT_PROSODY. -/
def DEFAULT_PROSODY : ProsodySettings :=
  ⟨1/2, 3/4, 0, 1, true, none⟩

/-- elevenlabs-tts.ts:103-111 — getVolumeSetting: a request volume inside
0..1 wins; otherwise a configured DA prosody volume inside 0..1;
otherwise 1. -/
def getVolumeSetting (requestVolume : Option ℚ) (daVoiceProsody : Option ProsodySettings) : ℚ :=
  match requestVolume with
  | some rv =>
    if 0 ≤ rv ∧ rv ≤ 1 then rv
    else match daVoiceProsody with
      | some p =>
        match p.volume with
        | some v => if 0 ≤ v ∧ v ≤ 1 then v else 1
        | none => 1
      | none => 1
  | none =>
    match daVoiceProsody with
    | some p =>
      match p.volume with
      | some v => if 0 ≤ v ∧ v ≤ 1 then v else 1
      | none => 1
    | none => 1

/-- How the spawned audio player ends: a spawn error event, or an exit
with a code. -/
inductive PlayerOutcome where
  | spawnError (msg : String)
  | exited (code : Int)

/-- The platform facts and player outcome that playAudio runs against. -/
structure PlayEnv where
  isMacos : Bool
  isLinux : Bool
  linuxPlayerAvailable : Bool
  outcome : PlayerOutcome
  requestVolume : Option ℚ
  daVoiceProsody : Option ProsodySettings

/-- What one playAudio call did: whether the temporary file was removed
before returning, the volume handed to the player, and the settled
result. -/
structure PlayResult where
  tempFileRemoved : Bool
  volumeUsed : ℚ
  result : Except String Unit

/-- server.ts:262-310 — playAudio: write the buffer to /tmp/voice-(tag),
resolve the volume via getVolumeSetting, then either spawn the platform
player (macOS afplay, or the detected Linux player) or, with no player,
remove the file and reject; the error and exit handlers both remove the
temporary file before settling. -/
def playAudio (env : PlayEnv) : PlayResult :=
  let volume := getVolumeSetting env.requestVolume env.daVoiceProsody
  if env.isMacos ∨ (env.isLinux ∧ env.linuxPlayerAvailable) then
    match env.outcome with
    | .spawnError msg => ⟨true, volume, .error msg⟩
    | .exited code =>
      if code = 0 then ⟨true, volume, .ok ()⟩
      else ⟨true, volume, .error "player exited with nonzero code"⟩
  else ⟨true, volume, .error "No audio player available"⟩

/-! ## /notify voice selection (server.ts:567, server.ts:412) -/

/-- JavaScript truthiness of an optional string field (absent, null and
the empty string are falsy). -/
def strTruthy : Option String → Bool
  | some s => s ≠ ""
  | none => false

/-- server.ts:567 — `data.voice_id || data.voice_name || null`. -/
def resolveRequestVoiceId (voiceIdField voiceNameField : Option String) : Option String :=
  if strTruthy voiceIdField then voiceIdField
  else if strTruthy voiceNameField then voiceNameField
  else none

/-- server.ts:412 — `const voice = voiceId || DEFAULT_VOICE_ID`. -/
def effectiveVoice (voiceId : Option String) (defaultVoiceId : String) : String :=
  match voiceId with
  | some s => if s = "" then defaultVoiceId else s
  | none => defaultVoiceId

/-! ## HTTP fetch handler (server.ts:538-644)

The handler is embedded per client key: the rate-limit record is the
entry of requestCounts for the requesting client.  The bodies of the
/notify and /pai branches are kept abstract (they enqueue work and build
a JSON response); the claims about this handler concern the routing, the
rate limiter and the /health response. -/

/-- The configuration snapshot the handler closes over. -/
structure ServerCtx where
  hasApiKey : Bool
  port : Nat
  enginePref : String
  selectedLocalEngine : LocalTTSEngine
  engineDescriptions : LocalTTSEngine → String
  defaultVoiceId : String
  isMacos : Bool
  isLinux : Bool

/-- The JSON body of the /health response (server.ts:624-634). -/
structure HealthBody where
  status : String
  port : Nat
  voice_system : String
  selected_local_engine : LocalTTSEngine
  tts_engine_preference : String
  elevenlabs_configured : Bool
  default_voice_id : String
  platform : String
  deriving DecidableEq

/-- The responses the handler can produce, with the branch bodies of
/notify and /pai left abstract. -/
inductive HttpResponse where
  | options204
  | rateLimited429
  | health200 (body : HealthBody)
  | notifyBranch
  | paiBranch
  | fallthrough200
  deriving DecidableEq

/-- server.ts:619-637 — the /health response body. -/
def healthResponse (ctx : ServerCtx) : HttpResponse :=
  .health200
    { status := "healthy"
      port := ctx.port
      voice_system :=
        if ctx.hasApiKey then "ElevenLabs (cloud)"
        else ctx.engineDescriptions ctx.selectedLocalEngine
      selected_local_engine := ctx.selectedLocalEngine
      tts_engine_preference := ctx.enginePref
      elevenlabs_configured := ctx.hasApiKey
      default_voice_id := ctx.defaultVoiceId
      platform := if ctx.isMacos then "darwin" else if ctx.isLinux then "linux" else "other" }

/-- server.ts:540-643 — one request of a fixed client key through the
fetch handler: OPTIONS short-circuits before the rate limiter; every
other request goes through checkRateLimit and is answered 429 when
denied; then the path is routed. -/
def handleFetch (ctx : ServerCtx) (method path : String) (now : Nat)
    (record : Option RLRecord) : HttpResponse × Option RLRecord :=
  if method = "OPTIONS" then (.options204, record)
  else
    let step := checkRateLimit now record
    if step.1 = false then (.rateLimited429, some step.2)
    else if path = "/notify" ∧ method = "POST" then (.notifyBranch, some step.2)
    else if path = "/pai" ∧ method = "POST" then (.paiBranch, some step.2)
    else if path = "/health" then (healthResponse ctx, some step.2)
    else (.fallthrough200, some step.2)

/-- Run a sequence of requests (method, path, time) of one client key
through the handler, returning the final rate-limit record. -/
def runRequests (ctx : ServerCtx) : List (String × String × Nat) → Option RLRecord → Option RLRecord
  | [], record => record
  | (m, p, t) :: rest, record =>
    runRequests ctx rest (handleFetch ctx m p t record).2

/-! ## Progressive pipeline (qwen3-tts.ts:113-212)

The promise-and-flag pipeline is embedded as a transition system over the
closure state of playQwen3Progressive.  The runtime is single-threaded
and cooperative: code between two awaits runs atomically.  The suspension
points are the generateSpeechQwen3 await inside generateAll and the
playAudioFn await inside playNext, so the transitions are: a pending
generation settles (with a buffer, or with the caught error that stores a
zero-length buffer), or the spawned player exits.  Each transition runs
the synchronous continuation from the source: storing the buffer and
calling playNext when not playing (qwen3-tts.ts:141-152), or clearing
isPlaying, advancing currentIndex and calling playNext again
(qwen3-tts.ts:187-195).  playNextSync is the synchronous prefix of
playNext up to starting a playback (its remainder after the await is the
player-exit continuation).  The trace records generation completions,
playback starts and playback ends, newest first; active lists the
playbacks that have started and not yet ended, so that overlapping
playbacks are representable and their absence is a theorem about the
isPlaying guard rather than a modelling artefact. -/

/-- Observable events of the progressive pipeline. -/
inductive PipeEv where
  | genEnd (i : Nat) (ok : Bool)
  | playStart (i : Nat)
  | playEnd (i : Nat)
  deriving DecidableEq, Repr

/-- The closure state of playQwen3Progressive: sentence count, the sparse
audioQueue array (none = undefined, some true = usable buffer, some
false = zero-length buffer), the generation loop position, currentIndex,
the isPlaying flag, the completion flags, the set of open playbacks and
the event trace (newest first). -/
structure PipeState where
  n : Nat
  slots : Nat → Option Bool
  genIdx : Nat
  genBusy : Bool
  genDone : Bool
  cur : Nat
  isPlaying : Bool
  active : List Nat
  playDone : Bool
  trace : List PipeEv

/-- qwen3-tts.ts:157-196 — the synchronous prefix of playNext: return if
a playback is in flight or the slot at the cursor is missing; skip
zero-length slots, advancing the cursor and flagging playback completion
past the end; otherwise set isPlaying and start the player on the
cursor slot. -/
def playNextSync (s : PipeState) : PipeState :=
  if s.isPlaying then s
  else
    match s.slots s.cur with
    | none => s
    | some ok =>
      if ok then
        { s with isPlaying := true, active := s.cur :: s.active,
                 trace := .playStart s.cur :: s.trace }
      else
        if s.cur + 1 < s.n then playNextSync { s with cur := s.cur + 1 }
        else { s with cur := s.cur + 1, playDone := true }
termination_by s.n - s.cur
decreasing_by
  · omega

/-- qwen3-tts.ts:139-155 — a pending generation settles: store the buffer
(zero-length on the caught error), call playNext when the buffer is
usable and nothing is playing, then either await the next sentence or
finish the generation loop. -/
def genStepResult (s : PipeState) (ok : Bool) : PipeState :=
  let s1 := { s with
    slots := fun j => if j = s.genIdx then some ok else s.slots j,
    genBusy := false,
    trace := .genEnd s.genIdx ok :: s.trace }
  let s2 := if ok ∧ s1.isPlaying = false then playNextSync s1 else s1
  if s.genIdx + 1 < s.n then { s2 with genIdx := s.genIdx + 1, genBusy := true }
  else { s2 with genDone := true }

/-- qwen3-tts.ts:181-196 — the player for sentence i exits (or its error
is caught): clear isPlaying, close the playback, advance the cursor, and
either run playNext again or flag playback completion. -/
def playStepResult (s : PipeState) (i : Nat) : PipeState :=
  let s1 := { s with
    isPlaying := false,
    active := s.active.erase i,
    cur := s.cur + 1,
    trace := .playEnd i :: s.trace }
  if s1.cur < s1.n then playNextSync s1
  else { s1 with playDone := true }

/-- The scheduler: either the pending generation settles (with either
outcome) or an open playback ends. -/
inductive PipeStep : PipeState → PipeState → Prop where
  | gen (s : PipeState) (ok : Bool) (h : s.genBusy = true) : PipeStep s (genStepResult s ok)
  | play (s : PipeState) (i : Nat) (h : i ∈ s.active) : PipeStep s (playStepResult s i)

/-- qwen3-tts.ts:119-143 — the state right after generateAll reaches its
first await (the progressive branch runs only for two or more
sentences). -/
def initPipeState (n : Nat) : PipeState :=
  { n := n, slots := fun _ => none, genIdx := 0, genBusy := true, genDone := false,
    cur := 0, isPlaying := false, active := [], playDone := false, trace := [] }

/-- States reachable by the pipeline. -/
inductive PipeReach : PipeState → Prop where
  | init (n : Nat) (h : 2 ≤ n) : PipeReach (initPipeState n)
  | step (s s2 : PipeState) (h1 : PipeReach s) (h2 : PipeStep s s2) : PipeReach s2

/-- Is the event a playback start? -/
def isStartEv : PipeEv → Bool
  | .playStart _ => true
  | _ => false

/-- Is the event a playback end? -/
def isEndEv : PipeEv → Bool
  | .playEnd _ => true
  | _ => false

/-- Number of playback starts in a trace. -/
def countStarts (t : List PipeEv) : Nat := t.countP isStartEv

/-- Number of playback ends in a trace. -/
def countEnds (t : List PipeEv) : Nat := t.countP isEndEv

/-- The pipeline invariant: at most one open playback; the isPlaying flag
tracks exactly whether one is open; starts and ends balance up to the
open playbacks; an open playback is at the cursor and its slot is a
usable buffer; every stored slot was logged by a generation event; every
started playback is below the cursor or still open; and at the moment of
every playback start the earlier trace was balanced, contained the
successful generation of that sentence, and only starts of smaller
indices. -/
structure PipeInv (s : PipeState) : Prop where
  activeLen : s.active.length ≤ 1
  playingIff : s.isPlaying = true ↔ s.active ≠ []
  balance : countStarts s.trace = countEnds s.trace + s.active.length
  activeCur : ∀ i ∈ s.active, s.cur = i
  slotLog : ∀ i b, s.slots i = some b → PipeEv.genEnd i b ∈ s.trace
  startsLt : ∀ j, PipeEv.playStart j ∈ s.trace → j < s.cur ∨ j ∈ s.active
  startsClean : ∀ pre i post, s.trace = pre ++ PipeEv.playStart i :: post →
      countStarts post = countEnds post ∧ PipeEv.genEnd i true ∈ post ∧
      ∀ j, PipeEv.playStart j ∈ post → j < i

/-! ## Lemmas about the sanitisation pass -/

/-- removeScriptTags only deletes characters. -/
theorem removeScriptTags_sublist (l : List Char) : List.Sublist (removeScriptTags l) l := by
  induction l using removeScriptTags.induct with
  | case1 => simp [removeScriptTags]
  | case2 c cs h ih =>
    rw [removeScriptTags, if_pos h]
    exact (ih.trans (List.drop_sublist 6 cs)).cons c
  | case3 c cs h ih =>
    rw [removeScriptTags, if_neg h]
    exact ih.cons₂ c

/-- A case-insensitive script match starts with an opening angle
bracket. -/
theorem startsWithScriptCI_head (l : List Char) (h : startsWithScriptCI l = true) :
    ∃ t, l = '<' :: t := by
  match l, h with
  | c0 :: c1 :: c2 :: c3 :: c4 :: c5 :: c6 :: t, h =>
    refine ⟨c1 :: c2 :: c3 :: c4 :: c5 :: c6 :: t, ?_⟩
    unfold startsWithScriptCI at h
    simp only [Bool.and_eq_true, beq_iff_eq] at h
    rw [h.1.1.1.1.1.1]

/-- removeScriptTags does nothing without an opening angle bracket. -/
theorem removeScriptTags_eq_self (l : List Char) (h : '<' ∉ l) : removeScriptTags l = l := by
  induction l using removeScriptTags.induct with
  | case1 => simp [removeScriptTags]
  | case2 c cs hm ih =>
    obtain ⟨t, ht⟩ := startsWithScriptCI_head _ hm
    rw [List.cons.injEq] at ht
    exact absurd (ht.1 ▸ List.mem_cons_self c cs) h
  | case3 c cs hm ih =>
    rw [removeScriptTags, if_neg hm, ih (fun hc => h (List.mem_cons_of_mem c hc))]

/-- removeDotDotSlash only deletes characters. -/
theorem removeDotDotSlash_sublist (l : List Char) : List.Sublist (removeDotDotSlash l) l := by
  induction l using removeDotDotSlash.induct with
  | case1 => simp [removeDotDotSlash]
  | case2 c cs h ih =>
    rw [removeDotDotSlash, if_pos h]
    exact (ih.trans (List.drop_sublist 2 cs)).cons c
  | case3 c cs h ih =>
    rw [removeDotDotSlash, if_neg h]
    exact ih.cons₂ c

/-- removeDotDotSlash does nothing without a period. -/
theorem removeDotDotSlash_eq_self (l : List Char) (h : '.' ∉ l) : removeDotDotSlash l = l := by
  induction l using removeDotDotSlash.induct with
  | case1 => simp [removeDotDotSlash]
  | case2 c cs hm ih =>
    have hc : c = '.' := by
      have := congrArg (fun t => t.head?) hm
      simp at this
      exact this
    exact absurd (hc ▸ List.mem_cons_self c cs) h
  | case3 c cs hm ih =>
    rw [removeDotDotSlash, if_neg hm, ih (fun hc => h (List.mem_cons_of_mem c hc))]

/-- removeShellMeta only deletes characters. -/
theorem removeShellMeta_sublist (l : List Char) : List.Sublist (removeShellMeta l) l :=
  List.filter_sublist l

/-- removeShellMeta does nothing when no character of the list is a shell
metacharacter. -/
theorem removeShellMeta_eq_self (l : List Char) (h : ∀ c ∈ l, isShellMeta c = false) :
    removeShellMeta l = l :=
  List.filter_eq_self.mpr (by simpa using h)

/-- No shell metacharacter survives removeShellMeta. -/
theorem not_shellMeta_of_mem_removeShellMeta (l : List Char) (c : Char)
    (h : c ∈ removeShellMeta l) : isShellMeta c = false := by
  have := List.of_mem_filter h
  simpa using this

/-- unwrapBold only deletes characters. -/
theorem unwrapBold_sublist (l : List Char) : List.Sublist (unwrapBold l) l := by
  induction l using unwrapBold.induct with
  | case1 => simp [unwrapBold]
  | case2 rest h ih =>
    rw [unwrapBold, if_pos h]
    have hsplit : rest.takeWhile (fun c => c != '*') ++ rest.dropWhile (fun c => c != '*') =
        rest := List.takeWhile_append_dropWhile _ _
    have h2 : rest.dropWhile (fun c => c != '*') =
        '*' :: '*' :: (rest.dropWhile (fun c => c != '*')).drop 2 := by
      obtain ⟨-, htake⟩ := h
      cases hv : rest.dropWhile (fun c => c != '*') with
      | nil => rw [hv] at htake; simp at htake
      | cons x xs =>
        cases xs with
        | nil => rw [hv] at htake; simp at htake
        | cons y ys =>
          rw [hv] at htake
          simp only [List.take_cons, List.take, List.cons.injEq] at htake
          simp [htake.1, htake.2.1]
    have step1 : List.Sublist
        (rest.takeWhile (fun c => c != '*') ++
          unwrapBold ((rest.dropWhile (fun c => c != '*')).drop 2))
        (rest.takeWhile (fun c => c != '*') ++
          ('*' :: '*' :: (rest.dropWhile (fun c => c != '*')).drop 2)) :=
      ((ih.cons '*').cons '*').append_left _
    have step2 : rest.takeWhile (fun c => c != '*') ++
        ('*' :: '*' :: (rest.dropWhile (fun c => c != '*')).drop 2) = rest := by
      rw [← h2, hsplit]
    rw [step2] at step1
    exact (step1.cons '*').cons '*'
  | case3 rest h ih =>
    rw [unwrapBold, if_neg h]
    exact ih.cons₂ '*'
  | case4 c cs h ih =>
    rw [unwrapBold.eq_def]
    split
    · simp
    · rename_i rest heq
      rw [List.cons.injEq] at heq
      exact (h rest heq.1 heq.2).elim
    · rename_i c2 cs2 heq
      rw [List.cons.injEq] at heq
      obtain ⟨h1, h2⟩ := heq
      subst h1
      subst h2
      exact ih.cons₂ c

/-- unwrapBold does nothing without an asterisk. -/
theorem unwrapBold_eq_self (l : List Char) (h : '*' ∉ l) : unwrapBold l = l := by
  induction l using unwrapBold.induct with
  | case1 => simp [unwrapBold]
  | case2 rest hm ih => exact absurd (List.mem_cons_self '*' _) h
  | case3 rest hm ih => exact absurd (List.mem_cons_self '*' _) h
  | case4 c cs hm ih =>
    rw [unwrapBold.eq_def]
    split
    · rename_i heq
      exact (List.cons_ne_nil c cs heq).elim
    · rename_i rest heq
      rw [List.cons.injEq] at heq
      exact (hm rest heq.1 heq.2).elim
    · rename_i c2 cs2 heq
      rw [List.cons.injEq] at heq
      obtain ⟨h1, h2⟩ := heq
      subst h1
      subst h2
      rw [ih (fun hc => h (List.mem_cons_of_mem c hc))]

/-- unwrapDelim only deletes characters. -/
theorem unwrapDelim_sublist (d : Char) (l : List Char) :
    List.Sublist (unwrapDelim d l) l := by
  induction l using unwrapDelim.induct d with
  | case1 => simp [unwrapDelim]
  | case2 cs hm ih =>
    rw [unwrapDelim, if_pos rfl, if_pos hm]
    have hsplit : cs.takeWhile (fun x => x != d) ++ cs.dropWhile (fun x => x != d) = cs :=
      List.takeWhile_append_dropWhile _ _
    have h2 : cs.dropWhile (fun x => x != d) =
        d :: (cs.dropWhile (fun x => x != d)).drop 1 := by
      obtain ⟨-, htake⟩ := hm
      cases hv : cs.dropWhile (fun x => x != d) with
      | nil => rw [hv] at htake; simp at htake
      | cons x xs =>
        rw [hv] at htake
        simp only [List.take_cons, List.take, List.cons.injEq] at htake
        simp [htake.1]
    have step1 : List.Sublist
        (cs.takeWhile (fun x => x != d) ++
          unwrapDelim d ((cs.dropWhile (fun x => x != d)).drop 1))
        (cs.takeWhile (fun x => x != d) ++
          (d :: (cs.dropWhile (fun x => x != d)).drop 1)) :=
      (ih.cons d).append_left _
    have step2 : cs.takeWhile (fun x => x != d) ++
        (d :: (cs.dropWhile (fun x => x != d)).drop 1) = cs := by
      rw [← h2, hsplit]
    rw [step2] at step1
    exact step1.cons d
  | case3 cs hm ih =>
    rw [unwrapDelim, if_pos rfl, if_neg hm]
    exact ih.cons₂ d
  | case4 c cs hd ih =>
    rw [unwrapDelim, if_neg hd]
    exact ih.cons₂ c

/-- unwrapDelim does nothing when the delimiter does not occur. -/
theorem unwrapDelim_eq_self (d : Char) (l : List Char) (h : d ∉ l) :
    unwrapDelim d l = l := by
  induction l using unwrapDelim.induct d with
  | case1 => simp [unwrapDelim]
  | case2 cs hm ih => exact absurd (List.mem_cons_self d cs) h
  | case3 cs hm ih => exact absurd (List.mem_cons_self d cs) h
  | case4 c cs hd ih =>
    rw [unwrapDelim, if_neg hd, ih (fun hc => h (List.mem_cons_of_mem c hc))]

/-- removeHeadingMarks only deletes characters. -/
theorem removeHeadingMarks_sublist (l : List Char) :
    List.Sublist (removeHeadingMarks l) l := by
  induction l using removeHeadingMarks.induct with
  | case1 => simp [removeHeadingMarks]
  | case2 cs hm ih =>
    rw [removeHeadingMarks, if_pos rfl, if_pos hm]
    exact ih.trans ((List.dropWhile_sublist isJsWs).trans
      (List.dropWhile_sublist (fun x => x == '#')))
  | case3 cs hm ih =>
    rw [removeHeadingMarks, if_pos rfl, if_neg hm]
    exact ih.cons₂ '#'
  | case4 c cs hd ih =>
    rw [removeHeadingMarks, if_neg hd]
    exact ih.cons₂ c

/-- removeHeadingMarks does nothing without a hash character. -/
theorem removeHeadingMarks_eq_self (l : List Char) (h : '#' ∉ l) :
    removeHeadingMarks l = l := by
  induction l using removeHeadingMarks.induct with
  | case1 => simp [removeHeadingMarks]
  | case2 cs hm ih => exact absurd (List.mem_cons_self '#' cs) h
  | case3 cs hm ih => exact absurd (List.mem_cons_self '#' cs) h
  | case4 c cs hd ih =>
    rw [removeHeadingMarks, if_neg hd, ih (fun hc => h (List.mem_cons_of_mem c hc))]

/-- jsTrim only deletes characters. -/
theorem jsTrim_sublist (l : List Char) : List.Sublist (jsTrim l) l := by
  unfold jsTrim
  have h1 := (List.dropWhile_sublist (l := (l.dropWhile isJsWs).reverse) isJsWs).reverse
  rw [List.reverse_reverse] at h1
  exact h1.trans (List.dropWhile_sublist isJsWs)

/-- dropWhile does nothing when no element satisfies the predicate. -/
theorem dropWhile_eq_self_of_none {α : Type} (p : α → Bool) (l : List α)
    (h : ∀ c ∈ l, p c = false) : l.dropWhile p = l := by
  cases l with
  | nil => rfl
  | cons a as =>
    rw [List.dropWhile_cons, h a (List.mem_cons_self a as)]
    simp

/-- jsTrim does nothing when the list holds no whitespace. -/
theorem jsTrim_eq_self_of_no_ws (l : List Char) (h : ∀ c ∈ l, isJsWs c = false) :
    jsTrim l = l := by
  unfold jsTrim
  rw [dropWhile_eq_self_of_none _ _ h,
    dropWhile_eq_self_of_none _ _ (fun c hc => h c (List.mem_reverse.mp hc)),
    List.reverse_reverse]

/-- A list unchanged by dropWhile has a head that fails the predicate. -/
theorem head_false_of_dropWhile_eq_self {α : Type} (p : α → Bool) (a : α) (as : List α)
    (h : (a :: as).dropWhile p = a :: as) : p a = false := by
  by_cases hp : p a = true
  · rw [List.dropWhile_cons, if_pos hp] at h
    have h1 := congrArg List.length h
    have h2 := (List.dropWhile_sublist (l := as) p).length_le
    simp only [List.length_cons] at h1
    omega
  · simpa using hp

/-- jsTrim is idempotent. -/
theorem jsTrim_idem (l : List Char) : jsTrim (jsTrim l) = jsTrim l := by
  have hdef : ∀ m : List Char, jsTrim m = List.rdropWhile isJsWs (m.dropWhile isJsWs) := by
    intro m; rfl
  rw [hdef l, hdef]
  have hA : (l.dropWhile isJsWs).dropWhile isJsWs = l.dropWhile isJsWs :=
    List.dropWhile_idempotent isJsWs l
  set A := l.dropWhile isJsWs with hAdef
  set C := List.rdropWhile isJsWs A with hCdef
  have hpre := List.rdropWhile_prefix isJsWs A
  obtain ⟨t, ht⟩ := hpre
  have hC : C.dropWhile isJsWs = C := by
    cases hCv : C with
    | nil => rfl
    | cons a as =>
      have hAeq : A = a :: (as ++ t) := by rw [← ht, ← hCdef, hCv]; simp
      have ha : isJsWs a = false := by
        apply head_false_of_dropWhile_eq_self isJsWs a (as ++ t)
        rw [← hAeq]
        exact hA
      rw [List.dropWhile_cons, ha]
      simp
  rw [hC]
  exact List.rdropWhile_idempotent isJsWs A

/-- sanitizeForSpeech only deletes characters. -/
theorem sanitizeForSpeech_sublist (l : List Char) :
    List.Sublist (sanitizeForSpeech l) l := by
  unfold sanitizeForSpeech
  exact (List.take_sublist _ _).trans ((jsTrim_sublist _).trans
    ((removeHeadingMarks_sublist _).trans ((unwrapDelim_sublist _ _).trans
    ((unwrapDelim_sublist _ _).trans ((unwrapBold_sublist _).trans
    ((removeShellMeta_sublist _).trans ((removeDotDotSlash_sublist _).trans
    (removeScriptTags_sublist _))))))))

/-- The sanitised text never exceeds 500 characters. -/
theorem sanitizeForSpeech_length_le (l : List Char) :
    (sanitizeForSpeech l).length ≤ 500 := by
  unfold sanitizeForSpeech
  simp [List.length_take]

/-! ## Claim C2 -/

/-- C2 counterexample: an input of 501 characters (all letters) sanitises
to 500 characters — non-empty and within the limit — yet validateInput
rejects it, because the length check of server.ts:182 runs on the raw
input, before sanitisation.  This refutes the claim that acceptance is
equivalent to the sanitised text being non-empty and at most 500
characters, and that rejection with the too-long error happens only when
the post-sanitisation length exceeds 500. -/
theorem validateInput_checks_pre_sanitisation_length :
    (validateInput (List.replicate 501 'a')).isOk = false ∧
    validateInput (List.replicate 501 'a') = .error msgTooLong ∧
    sanitizeForSpeech (List.replicate 501 'a') = List.replicate 500 'a' ∧
    sanitizeForSpeech (List.replicate 501 'a') ≠ [] ∧
    (sanitizeForSpeech (List.replicate 501 'a')).length ≤ 500 := by
  have hmem : ∀ c ∈ List.replicate 501 'a', c = 'a' := fun c hc => List.eq_of_mem_replicate hc
  have hnot : ∀ c : Char, c ≠ 'a' → c ∉ List.replicate 501 'a' :=
    fun c hne hc => hne (hmem c hc)
  have hsan : sanitizeForSpeech (List.replicate 501 'a') = List.replicate 500 'a' := by
    unfold sanitizeForSpeech
    rw [removeScriptTags_eq_self _ (hnot '<' (by decide)),
      removeDotDotSlash_eq_self _ (hnot '.' (by decide)),
      removeShellMeta_eq_self _ (fun c hc => by rw [hmem c hc]; rfl),
      unwrapBold_eq_self _ (hnot '*' (by decide)),
      unwrapDelim_eq_self '*' _ (hnot '*' (by decide)),
      unwrapDelim_eq_self backquoteChar _ (hnot backquoteChar (by decide)),
      removeHeadingMarks_eq_self _ (hnot '#' (by decide)),
      jsTrim_eq_self_of_no_ws _ (fun c hc => by rw [hmem c hc]; rfl),
      List.take_replicate]
    norm_num
  have hv : validateInput (List.replicate 501 'a') = .error msgTooLong := by
    unfold validateInput
    rw [if_pos (by rw [List.length_replicate]; omega)]
  refine ⟨by rw [hv]; rfl, hv, hsan, ?_, ?_⟩
  · rw [hsan]
    intro heq
    have := congrArg List.length heq
    rw [List.length_replicate, List.length_nil] at this
    omega
  · rw [hsan, List.length_replicate]

/-- C2 (amended): validateInput rejects with the too-long error exactly
when the raw, pre-sanitisation input exceeds 500 characters; within that
limit it accepts if and only if the sanitised text is non-empty; an
accepted value is the sanitised text, which never exceeds 500
characters. -/
theorem validateInput_spec (l : List Char) :
    (validateInput l = .error msgTooLong ↔ 500 < l.length) ∧
    (l.length ≤ 500 → ((validateInput l).isOk = true ↔ sanitizeForSpeech l ≠ [])) ∧
    (∀ s, validateInput l = .ok s → s = sanitizeForSpeech l ∧ s.length ≤ 500) := by
  have hmsg : msgEmpty ≠ msgTooLong := by decide
  by_cases hlen : 500 < l.length
  · have hv : validateInput l = .error msgTooLong := by
      unfold validateInput
      rw [if_pos hlen]
    refine ⟨⟨fun _ => hlen, fun _ => hv⟩, fun hc => absurd hlen (by omega), fun s hs => ?_⟩
    rw [hv] at hs
    cases hs
  · by_cases hempty : (sanitizeForSpeech l).length = 0
    · have hv : validateInput l = .error msgEmpty := by
        unfold validateInput
        rw [if_neg hlen, if_pos hempty]
      refine ⟨⟨fun he => ?_, fun hg => absurd hg hlen⟩, fun _ => ?_, fun s hs => ?_⟩
      · rw [hv] at he
        exact absurd (Except.error.inj he) hmsg
      · rw [hv]
        constructor
        · intro h
          cases h
        · intro hne
          exact absurd (List.length_eq_zero.mp hempty) hne
      · rw [hv] at hs
        cases hs
    · have hv : validateInput l = .ok (sanitizeForSpeech l) := by
        unfold validateInput
        rw [if_neg hlen, if_neg hempty]
      refine ⟨⟨fun he => ?_, fun hg => absurd hg hlen⟩, fun _ => ?_, fun s hs => ?_⟩
      · rw [hv] at he
        cases he
      · rw [hv]
        constructor
        · intro _ hnil
          exact hempty (by rw [hnil]; rfl)
        · intro _
          rfl
      · rw [hv] at hs
        refine ⟨(Except.ok.inj hs).symm, ?_⟩
        rw [← Except.ok.inj hs]
        exact sanitizeForSpeech_length_le l

/-- C2 witness: a short plain input passes validation. -/
theorem validateInput_spec_witness : (validateInput ['h', 'i']).isOk = true := by
  refine ((validateInput_spec ['h', 'i']).2.1 (by simp)).mpr ?_
  simp [sanitizeForSpeech, removeScriptTags, removeDotDotSlash, removeShellMeta,
    unwrapBold, unwrapDelim, removeHeadingMarks, jsTrim, isShellMeta, isJsWs,
    backquoteChar, startsWithScriptCI, List.filter, List.dropWhile, List.takeWhile]

/-! ## Claim C7 -/

/-- C7 counterexample: sanitizeForSpeech is not idempotent.  On the input
of four asterisks, the letter a, and four asterisks, one pass unwraps the
nested emphasis to a single asterisk pair while a second pass unwraps
that pair as well, so applying the function twice differs from applying
it once. -/
theorem sanitizeForSpeech_not_idempotent :
    sanitizeForSpeech (sanitizeForSpeech ['*', '*', '*', '*', 'a', '*', '*', '*', '*']) ≠
      sanitizeForSpeech ['*', '*', '*', '*', 'a', '*', '*', '*', '*'] := by
  simp [sanitizeForSpeech, removeScriptTags, removeDotDotSlash, removeShellMeta,
    unwrapBold, unwrapDelim, removeHeadingMarks, jsTrim, isShellMeta, isJsWs,
    backquoteChar, startsWithScriptCI, List.filter, List.dropWhile, List.takeWhile]

/-- C7 (amended): sanitizeForSpeech is idempotent on inputs of at most
500 characters that contain no asterisk, no period and no hash — the
characters whose single-pass markup unwrapping (nested emphasis) or
single-pass removal scans (path traversal reassembly, heading marks) can
leave freshly-formed patterns for a second pass; on such inputs one pass
already reaches a fixed point. -/
theorem sanitizeForSpeech_idem_of_plain (x : List Char) (h1 : '*' ∉ x) (h2 : '.' ∉ x)
    (h3 : '#' ∉ x) (h4 : x.length ≤ 500) :
    sanitizeForSpeech (sanitizeForSpeech x) = sanitizeForSpeech x := by
  have hzx : List.Sublist
      (removeHeadingMarks (unwrapDelim backquoteChar (unwrapDelim '*' (unwrapBold
        (removeShellMeta (removeDotDotSlash (removeScriptTags x))))))) x :=
    (removeHeadingMarks_sublist _).trans ((unwrapDelim_sublist _ _).trans
      ((unwrapDelim_sublist _ _).trans ((unwrapBold_sublist _).trans
      ((removeShellMeta_sublist _).trans ((removeDotDotSlash_sublist _).trans
      (removeScriptTags_sublist _))))))
  have hyeq : sanitizeForSpeech x = jsTrim (removeHeadingMarks (unwrapDelim backquoteChar
      (unwrapDelim '*' (unwrapBold (removeShellMeta (removeDotDotSlash
      (removeScriptTags x))))))) := by
    unfold sanitizeForSpeech
    exact List.take_of_length_le (le_trans (jsTrim_sublist _).length_le
      (le_trans hzx.length_le h4))
  have hysub : List.Sublist (sanitizeForSpeech x) x := sanitizeForSpeech_sublist x
  have hmeta : ∀ c ∈ sanitizeForSpeech x, isShellMeta c = false := by
    intro c hc
    apply not_shellMeta_of_mem_removeShellMeta (removeDotDotSlash (removeScriptTags x))
    have hsub2 : List.Sublist (sanitizeForSpeech x)
        (removeShellMeta (removeDotDotSlash (removeScriptTags x))) := by
      unfold sanitizeForSpeech
      exact (List.take_sublist _ _).trans ((jsTrim_sublist _).trans
        ((removeHeadingMarks_sublist _).trans ((unwrapDelim_sublist _ _).trans
        ((unwrapDelim_sublist _ _).trans (unwrapBold_sublist _)))))
    exact hsub2.mem hc
  have hnostar : '*' ∉ sanitizeForSpeech x := fun hc => h1 (hysub.mem hc)
  have hnodot : '.' ∉ sanitizeForSpeech x := fun hc => h2 (hysub.mem hc)
  have hnohash : '#' ∉ sanitizeForSpeech x := fun hc => h3 (hysub.mem hc)
  have hnolt : '<' ∉ sanitizeForSpeech x := by
    intro hc
    have := hmeta '<' hc
    simp [isShellMeta] at this
  have hnobq : backquoteChar ∉ sanitizeForSpeech x := by
    intro hc
    have := hmeta backquoteChar hc
    simp [isShellMeta] at this
  have htrim : jsTrim (sanitizeForSpeech x) = sanitizeForSpeech x := by
    rw [hyeq, jsTrim_idem]
  have hlen : (sanitizeForSpeech x).length ≤ 500 := sanitizeForSpeech_length_le x
  conv_lhs => rw [sanitizeForSpeech.eq_def]
  rw [removeScriptTags_eq_self _ hnolt, removeDotDotSlash_eq_self _ hnodot,
    removeShellMeta_eq_self _ hmeta, unwrapBold_eq_self _ hnostar,
    unwrapDelim_eq_self '*' _ hnostar, unwrapDelim_eq_self backquoteChar _ hnobq,
    removeHeadingMarks_eq_self _ hnohash, htrim]
  exact List.take_of_length_le hlen

/-- C7 witness: the amended idempotence applied to a concrete plain
input. -/
theorem sanitizeForSpeech_idem_witness :
    sanitizeForSpeech (sanitizeForSpeech ['h', 'i']) = sanitizeForSpeech ['h', 'i'] :=
  sanitizeForSpeech_idem_of_plain ['h', 'i'] (by decide) (by decide) (by decide) (by decide)

/-! ## Claim C8 -/

/-- matchAllSentences on the empty input. -/
theorem matchAllSentences_nil : matchAllSentences [] = [] := by
  rw [matchAllSentences.eq_def]

/-- matchAllSentences when the pattern matches at the current position. -/
theorem matchAllSentences_cons_some (c : Char) (cs m rest : List Char)
    (h : tryMatchAt (c :: cs) = some (m, rest)) :
    matchAllSentences (c :: cs) = m :: matchAllSentences rest := by
  rw [matchAllSentences.eq_def]
  split
  · rename_i heq
    exact (List.cons_ne_nil c cs heq).elim
  · rename_i c2 cs2 heq
    rw [List.cons.injEq] at heq
    obtain ⟨h1, h2⟩ := heq
    subst h1
    subst h2
    split
    · rename_i m2 rest2 heq2
      rw [h] at heq2
      cases heq2
      rfl
    · rename_i heq2
      rw [h] at heq2
      cases heq2

/-- matchAllSentences when the pattern fails at the current position. -/
theorem matchAllSentences_cons_none (c : Char) (cs : List Char)
    (h : tryMatchAt (c :: cs) = none) :
    matchAllSentences (c :: cs) = matchAllSentences cs := by
  rw [matchAllSentences.eq_def]
  split
  · rename_i heq
    exact (List.cons_ne_nil c cs heq).elim
  · rename_i c2 cs2 heq
    rw [List.cons.injEq] at heq
    obtain ⟨h1, h2⟩ := heq
    subst h1
    subst h2
    split
    · rename_i m2 rest2 heq2
      rw [h] at heq2
      cases heq2
    · rfl

/-- C8 counterexample: the sentence splitter drops content.  On the input
a, period, b, the terminator is followed by a non-whitespace character,
so neither regex alternative matches before position 2 and the fragment
a-period is silently discarded: the split returns only the sentence b,
and joining the sentences loses the non-whitespace character a.  This
refutes the round-trip claim that no non-whitespace content of the
message is lost. -/
theorem splitIntoSentences_drops_content :
    splitIntoSentences ['a', '.', 'b'] = [['b']] ∧
    coreContent (joinWithSpaces (splitIntoSentences ['a', '.', 'b'])) ≠
      coreContent ['a', '.', 'b'] := by
  have h1 : tryMatchAt ['a', '.', 'b'] = none := rfl
  have h2 : tryMatchAt ['.', 'b'] = none := rfl
  have h3 : tryMatchAt ['b'] = some (['b'], []) := rfl
  have hsplit : splitIntoSentences ['a', '.', 'b'] = [['b']] := by
    rw [splitIntoSentences, matchAllSentences_cons_none _ _ h1,
      matchAllSentences_cons_none _ _ h2, matchAllSentences_cons_some _ _ _ _ h3,
      matchAllSentences_nil]
    rfl
  refine ⟨hsplit, ?_⟩
  rw [hsplit]
  intro heq
  cases heq

/-- Chunks located in a list are still located after prepending. -/
theorem chunksInOrder_prepend (ss : List (List Char)) (t x : List Char)
    (h : chunksInOrder ss t) : chunksInOrder ss (x ++ t) := by
  cases ss with
  | nil => trivial
  | cons s rest =>
    obtain ⟨pre, post, heq, hrest⟩ := h
    exact ⟨x ++ pre, post, by rw [heq]; simp [List.append_assoc], hrest⟩

/-- The matches of the sentence pattern are disjoint contiguous
substrings of the input, in order. -/
theorem matchAllSentences_chunks (l : List Char) :
    chunksInOrder (matchAllSentences l) l := by
  induction l using matchAllSentences.induct with
  | case1 => rw [matchAllSentences_nil]; trivial
  | case2 c cs m rest h ih =>
    rw [matchAllSentences_cons_some _ _ _ _ h]
    obtain ⟨heq, -⟩ := tryMatchAt_eq _ _ _ h
    exact ⟨[], rest, by rw [List.nil_append, heq], ih⟩
  | case3 c cs h ih =>
    rw [matchAllSentences_cons_none _ _ h]
    have := chunksInOrder_prepend (matchAllSentences cs) cs [c] ih
    simpa using this

/-- Trimming each chunk keeps the chunk property. -/
theorem chunksInOrder_map_jsTrim (ss : List (List Char)) (t : List Char)
    (h : chunksInOrder ss t) : chunksInOrder (ss.map jsTrim) t := by
  induction ss generalizing t with
  | nil => trivial
  | cons s rest ih =>
    obtain ⟨pre, post, heq, hrest⟩ := h
    have hdec : ∃ a b, s = a ++ jsTrim s ++ b := by
      have hsplit1 : s.takeWhile isJsWs ++ s.dropWhile isJsWs = s :=
        List.takeWhile_append_dropWhile _ _
      have hpre := List.rdropWhile_prefix isJsWs (s.dropWhile isJsWs)
      obtain ⟨b, hb⟩ := hpre
      refine ⟨s.takeWhile isJsWs, b, ?_⟩
      have hj : jsTrim s = List.rdropWhile isJsWs (s.dropWhile isJsWs) := rfl
      rw [hj, List.append_assoc, hb, hsplit1]
    obtain ⟨a, b, hs⟩ := hdec
    refine ⟨pre ++ a, b ++ post, ?_, chunksInOrder_prepend _ _ b (ih post hrest)⟩
    conv_lhs => rw [heq, hs]
    simp [List.append_assoc]

/-- Dropping chunks keeps the chunk property. -/
theorem chunksInOrder_filter (p : List Char → Bool) (ss : List (List Char)) (t : List Char)
    (h : chunksInOrder ss t) : chunksInOrder (ss.filter p) t := by
  induction ss generalizing t with
  | nil => trivial
  | cons s rest ih =>
    obtain ⟨pre, post, heq, hrest⟩ := h
    rw [List.filter_cons]
    by_cases hp : p s
    · rw [if_pos hp]
      exact ⟨pre, post, heq, ih post hrest⟩
    · rw [if_neg hp]
      have h2 := chunksInOrder_prepend _ _ (pre ++ s) (ih post hrest)
      rw [List.append_assoc] at h2
      rw [heq, List.append_assoc]
      exact h2

/-- C8 (amended): the sentence splitter preserves order and contiguity —
its result is a list of disjoint contiguous substrings of the message
appearing in their original order (so nothing is reordered or
duplicated) — but the round-trip identity fails in general: a terminator
run followed directly by a non-whitespace, non-terminator character makes
the preceding fragment unmatched, and unmatched input is dropped. -/
theorem splitIntoSentences_chunksInOrder (t : List Char) :
    chunksInOrder (splitIntoSentences t) t := by
  unfold splitIntoSentences
  by_cases h : matchAllSentences t = []
  · rw [if_pos h]
    exact ⟨[], [], by simp, trivial⟩
  · rw [if_neg h]
    exact chunksInOrder_filter _ _ _ (chunksInOrder_map_jsTrim _ _ (matchAllSentences_chunks t))

/-! ## Claim C3 -/

/-- Unfolding equation: one step of the request fold. -/
theorem runRateLimiter_cons (t : Nat) (ts : List Nat) (st : Option RLRecord) :
    runRateLimiter (t :: ts) st =
      ((checkRateLimit t st).1, (checkRateLimit t st).2.resetTime) ::
        runRateLimiter ts (some (checkRateLimit t st).2) := rfl

/-- Unfolding equation: checkRateLimit with a stored record. -/
theorem checkRateLimit_some (t : Nat) (r : RLRecord) :
    checkRateLimit t (some r) =
      if r.resetTime < t then (true, ⟨1, t + RATE_WINDOW⟩)
      else if RATE_LIMIT ≤ r.count then (false, r)
      else (true, ⟨r.count + 1, r.resetTime⟩) := rfl

/-- Unfolding equation: checkRateLimit with no stored record. -/
theorem checkRateLimit_none (t : Nat) :
    checkRateLimit t none = (true, ⟨1, t + RATE_WINDOW⟩) := rfl

/-- Window-tagged admission bound, by induction over the remaining
requests: a live record with count admissions already granted can see at
most 10 - count further admissions in its own window, at most 10 in any
other window, and none in a window older than its own. -/
theorem runRateLimiter_window_bound (ts : List Nat) (r : RLRecord) (w : Nat)
    (hc2 : r.count ≤ 10) :
    (r.resetTime = w → windowAdmissions w (runRateLimiter ts (some r)) + r.count ≤ 10) ∧
    (r.resetTime ≠ w → windowAdmissions w (runRateLimiter ts (some r)) ≤ 10) ∧
    (w < r.resetTime → windowAdmissions w (runRateLimiter ts (some r)) = 0) := by
  induction ts generalizing r with
  | nil =>
    refine ⟨fun _ => ?_, fun _ => ?_, fun _ => ?_⟩ <;>
      simp [runRateLimiter, windowAdmissions]
    omega
  | cons t ts ih =>
    rw [runRateLimiter_cons, checkRateLimit_some]
    by_cases hreset : r.resetTime < t
    · rw [if_pos hreset]
      dsimp only
      have ihr := ih ⟨1, t + RATE_WINDOW⟩ (by simp)
      dsimp only at ihr
      simp only [windowAdmissions, List.countP_cons] at ihr ⊢
      by_cases hw : t + RATE_WINDOW = w
      · have h1 := ihr.1 hw
        have hb : (true && (t + RATE_WINDOW == w)) = true := by simp [hw]
        refine ⟨fun hrw => absurd hw (by rw [← hrw] at *; simp [RATE_WINDOW]; omega),
          fun _ => ?_, fun hlt => absurd hw (by simp [RATE_WINDOW] at *; omega)⟩
        simp only [hb, if_pos]
        omega
      · have hb : (true && (t + RATE_WINDOW == w)) = false := by simp [hw]
        simp only [hb, Bool.false_eq_true, if_false, Nat.add_zero]
        refine ⟨fun hrw => ?_, fun _ => ?_, fun hlt => ?_⟩
        · rw [ihr.2.2 (by rw [← hrw]; unfold RATE_WINDOW; omega)]
          omega
        · exact ihr.2.1 hw
        · exact ihr.2.2 (by simp [RATE_WINDOW]; omega)
    · rw [if_neg hreset]
      by_cases hfull : RATE_LIMIT ≤ r.count
      · rw [if_pos hfull]
        dsimp only
        have ihr := ih r hc2
        simp only [windowAdmissions, List.countP_cons] at ihr ⊢
        simp only [Bool.false_and, Bool.false_eq_true, if_false, Nat.add_zero]
        exact ihr
      · rw [if_neg hfull]
        dsimp only
        have hlt10 : r.count < 10 := by simpa [RATE_LIMIT] using hfull
        have ihr := ih ⟨r.count + 1, r.resetTime⟩ (by simp; omega)
        dsimp only at ihr
        simp only [windowAdmissions, List.countP_cons] at ihr ⊢
        refine ⟨fun hrw => ?_, fun hne => ?_, fun hlt => ?_⟩
        · have h1 := ihr.1 hrw
          have hb : (true && (r.resetTime == w)) = true := by simp [hrw]
          simp only [hb, if_pos]
          omega
        · have h2 := ihr.2.1 hne
          have hb : (true && (r.resetTime == w)) = false := by simp [hne]
          simp only [hb, Bool.false_eq_true, if_false, Nat.add_zero]
          exact h2
        · have h3 := ihr.2.2 hlt
          have hb : (true && (r.resetTime == w)) = false := by
            simp
            omega
          simp only [hb, Bool.false_eq_true, if_false, Nat.add_zero]
          exact h3

/-- C3 (amended): for every rate-limit key and every arrival sequence, at
most 10 requests are admitted against any single limiter window (the
fixed window identified by its reset deadline).  A sliding 60-second
interval can span two adjacent fixed windows, so the claimed sliding
bound of 10 fails (see the counterexample); the per-window bound is what
checkRateLimit enforces. -/
theorem rateLimiter_per_window_bound (ts : List Nat) (w : Nat) :
    windowAdmissions w (runRateLimiter ts none) ≤ 10 := by
  cases ts with
  | nil => simp [runRateLimiter, windowAdmissions]
  | cons t ts =>
    rw [runRateLimiter_cons, checkRateLimit_none]
    dsimp only
    have ihr := runRateLimiter_window_bound ts ⟨1, t + RATE_WINDOW⟩ w (by simp)
    dsimp only at ihr
    simp only [windowAdmissions, List.countP_cons] at ihr ⊢
    by_cases hw : t + RATE_WINDOW = w
    · have h1 := ihr.1 hw
      have hb : (true && (t + RATE_WINDOW == w)) = true := by simp [hw]
      simp only [hb, if_pos]
      omega
    · have h2 := ihr.2.1 hw
      have hb : (true && (t + RATE_WINDOW == w)) = false := by simp [hw]
      simp only [hb, Bool.false_eq_true, if_false, Nat.add_zero]
      exact h2

/-- C3 counterexample: the fixed-window limiter admits 19 requests inside
one sliding 60-second interval.  The first request opens a window with
deadline 60000; nine more admissions at 59999 stay in it; at 60001 the
window has expired, so ten further requests are admitted against the
fresh window.  The interval of times t with 59999 ≤ t < 119999 then
contains 19 admissions, refuting the claim that at most 10 requests from
one key are admitted within every 60-second wall-clock interval. -/
theorem rateLimiter_sliding_window_cex :
    10 < (admittedTimes (0 :: (List.replicate 9 59999 ++ List.replicate 10 60001))).countP
      (fun t => decide (59999 ≤ t ∧ t < 119999)) := by decide

/-! ## Claim C1 -/

/-- C1 counterexample: the fallback is not the engine chain of the
specification.  With piper cached as the selected local engine, piper
failing and os-tts healthy, the catch block of processNotificationVoice
retries dispatchLocalTTS — which invokes only the cached engine and
fails — while the specified chain piper, qwen3, os-tts would have reached
os-tts and succeeded.  The retry outcome therefore does not agree with
the chain semantics. -/
theorem dispatch_fallback_not_chain_cex :
    (processNotificationVoice true (.error "cloud failure") .piper
        ⟨.error "piper unavailable", .error "qwen3 unavailable", .ok ()⟩).fallbackAttempt.map
      Except.isOk = some false ∧
    (fallbackChainPerSpec
        ⟨.error "piper unavailable", .error "qwen3 unavailable", .ok ()⟩).isOk = true := by
  constructor
  · rfl
  · rfl

/-- C1 (amended): on any exception from the primary path the dispatch
retries exactly once, against the single local engine cached at startup
by selectLocalTTSEngine (whose auto-detection ranks piper, then qwen3,
then os-tts); a failure of that retry is swallowed, the queued item
always resolves, and no retry happens when the primary path succeeds. -/
theorem processNotificationVoice_resolves (hasApiKey : Bool) (cloud : Except String Unit)
    (sel : LocalTTSEngine) (env : LocalEnv) :
    (processNotificationVoice hasApiKey cloud sel env).resolved = true ∧
    ((processNotificationVoice hasApiKey cloud sel env).primaryAttempt.isOk = false →
      (processNotificationVoice hasApiKey cloud sel env).fallbackAttempt =
        some (dispatchLocalTTS sel env)) ∧
    ((processNotificationVoice hasApiKey cloud sel env).primaryAttempt.isOk = true →
      (processNotificationVoice hasApiKey cloud sel env).fallbackAttempt = none) ∧
    (∀ piperAvail qwenAvail : Bool, selectLocalTTSEngine "" piperAvail qwenAvail =
      if piperAvail then .piper else if qwenAvail then .qwen3 else .osTts) := by
  refine ⟨?_, ?_, ?_, ?_⟩
  · unfold processNotificationVoice
    cases hp : (if hasApiKey then cloud else dispatchLocalTTS sel env) <;> simp [hp]
  · unfold processNotificationVoice
    cases hp : (if hasApiKey then cloud else dispatchLocalTTS sel env) <;>
      simp [hp, Except.isOk, Except.toBool]
  · unfold processNotificationVoice
    cases hp : (if hasApiKey then cloud else dispatchLocalTTS sel env) <;>
      simp [hp, Except.isOk, Except.toBool]
  · intro piperAvail qwenAvail
    unfold selectLocalTTSEngine
    have h1 : ¬ (("" : String) = "piper" ∧ piperAvail = true) := by
      rintro ⟨h, -⟩
      exact absurd h (by decide)
    have h2 : ¬ (("" : String) = "qwen3" ∧ qwenAvail = true) := by
      rintro ⟨h, -⟩
      exact absurd h (by decide)
    rw [if_neg h1, if_neg h2]

/-- C1 witness: with the cloud path failing and os-tts cached, the retry
runs os-tts once and the item resolves. -/
theorem processNotificationVoice_resolves_witness :
    (processNotificationVoice true (.error "boom") .osTts
        ⟨.ok (), .ok (), .ok ()⟩).fallbackAttempt = some (.ok ()) :=
  (processNotificationVoice_resolves true (.error "boom") .osTts
    ⟨.ok (), .ok (), .ok ()⟩).2.1 rfl

/-! ## Claim C6 -/

/-- C6: on every exit path of playAudio — no player available, spawn
error, clean exit, non-zero exit — the temporary audio file is removed
before the call settles, so no temporary file outlives the player spawned
to play it. -/
theorem playAudio_always_removes_temp_file (env : PlayEnv) :
    (playAudio env).tempFileRemoved = true := by
  unfold playAudio
  split
  · cases env.outcome with
    | spawnError msg => rfl
    | exited code =>
      dsimp only
      by_cases h : code = 0
      · rw [if_pos h]
      · rw [if_neg h]
  · rfl

/-! ## Claim C9 -/

/-- C9: voice_id takes precedence over voice_name; voice_name is used
only when voice_id is absent or falsy (the empty string); when both are
absent or falsy the resolved id is null and the configured default voice
is used downstream. -/
theorem voiceId_precedence (voiceIdField voiceNameField : Option String)
    (defaultVoiceId : String) :
    (strTruthy voiceIdField = false ↔ voiceIdField = none ∨ voiceIdField = some "") ∧
    (∀ s, voiceIdField = some s → s ≠ "" →
      resolveRequestVoiceId voiceIdField voiceNameField = some s) ∧
    (strTruthy voiceIdField = false → ∀ t, voiceNameField = some t → t ≠ "" →
      resolveRequestVoiceId voiceIdField voiceNameField = some t) ∧
    (strTruthy voiceIdField = false → strTruthy voiceNameField = false →
      resolveRequestVoiceId voiceIdField voiceNameField = none ∧
      effectiveVoice (resolveRequestVoiceId voiceIdField voiceNameField) defaultVoiceId =
        defaultVoiceId) := by
  refine ⟨?_, ?_, ?_, ?_⟩
  · cases voiceIdField with
    | none => simp [strTruthy]
    | some s =>
      simp only [strTruthy]
      constructor
      · intro h
        right
        simp only [decide_eq_false_iff_not, Decidable.not_not] at h
        rw [h]
      · rintro (h | h)
        · cases h
        · rw [Option.some.injEq] at h
          simp [h]
  · intro s hs hne
    unfold resolveRequestVoiceId
    rw [if_pos (by rw [hs]; simpa [strTruthy] using hne)]
    exact hs
  · intro hfalse t ht htne
    unfold resolveRequestVoiceId
    rw [if_neg (by rw [hfalse]; exact Bool.false_ne_true),
      if_pos (by rw [ht]; simpa [strTruthy] using htne)]
    exact ht
  · intro h1 h2
    unfold resolveRequestVoiceId
    rw [if_neg (by rw [h1]; exact Bool.false_ne_true),
      if_neg (by rw [h2]; exact Bool.false_ne_true)]
    exact ⟨rfl, rfl⟩

/-- C9 witness: an empty voice_id defers to voice_name. -/
theorem voiceId_precedence_witness :
    resolveRequestVoiceId (some "") (some "Ava") = some "Ava" :=
  (voiceId_precedence (some "") (some "Ava") "default").2.2.1 rfl "Ava" rfl (by decide)

/-! ## Claim C10 -/

/-- The volume playAudio hands to the player is getVolumeSetting applied
to the request volume and the DA prosody. -/
theorem playAudio_volumeUsed (env : PlayEnv) :
    (playAudio env).volumeUsed = getVolumeSetting env.requestVolume env.daVoiceProsody := by
  unfold playAudio
  split
  · cases env.outcome with
    | spawnError msg => rfl
    | exited code =>
      dsimp only
      by_cases h : code = 0
      · rw [if_pos h]
      · rw [if_neg h]
  · rfl

/-- C10: a request volume outside 0..1 is silently ignored — playback
uses the same volume as if no request volume had been supplied: the
DA-configured prosody volume when that lies in 0..1, and 1 otherwise;
the out-of-range value itself is never handed to the player and causes
no error (getVolumeSetting is total). -/
theorem getVolumeSetting_ignores_out_of_range (rv : ℚ) (p : Option ProsodySettings)
    (hout : ¬ (0 ≤ rv ∧ rv ≤ 1)) :
    getVolumeSetting (some rv) p = getVolumeSetting none p ∧
    (∀ q v, p = some q → q.volume = some v → 0 ≤ v ∧ v ≤ 1 →
      getVolumeSetting (some rv) p = v) ∧
    (∀ q v, p = some q → q.volume = some v → ¬ (0 ≤ v ∧ v ≤ 1) →
      getVolumeSetting (some rv) p = 1) ∧
    (∀ q, p = some q → q.volume = none → getVolumeSetting (some rv) p = 1) ∧
    (p = none → getVolumeSetting (some rv) p = 1) ∧
    (∀ env : PlayEnv, env.requestVolume = some rv → env.daVoiceProsody = p →
      (playAudio env).volumeUsed = getVolumeSetting none p) := by
  have hbase : getVolumeSetting (some rv) p = getVolumeSetting none p := by
    unfold getVolumeSetting
    dsimp only
    rw [if_neg hout]
  refine ⟨hbase, ?_, ?_, ?_, ?_, ?_⟩
  · intro q v hq hv hrange
    rw [hbase, hq]
    unfold getVolumeSetting
    dsimp only
    rw [hv]
    dsimp only
    rw [if_pos hrange]
  · intro q v hq hv hrange
    rw [hbase, hq]
    unfold getVolumeSetting
    dsimp only
    rw [hv]
    dsimp only
    rw [if_neg hrange]
  · intro q hq hv
    rw [hbase, hq]
    unfold getVolumeSetting
    dsimp only
    rw [hv]
  · intro hp
    rw [hbase, hp]
    unfold getVolumeSetting
    dsimp only
  · intro env he hd
    rw [playAudio_volumeUsed, he, hd, hbase]

/-- C10 witness: a request volume of 2 falls back to the configured DA
volume of one half. -/
theorem getVolumeSetting_witness :
    getVolumeSetting (some 2) (some ⟨1/2, 3/4, 0, 1, true, some (1/2)⟩) = 1/2 :=
  (getVolumeSetting_ignores_out_of_range 2 (some ⟨1/2, 3/4, 0, 1, true, some (1/2)⟩)
    (by norm_num)).2.1 _ _ rfl rfl (by norm_num)

/-! ## Claim C4 -/

/-- C4 counterexample: the rate limiter runs before the /health route
(server.ts:554 precedes server.ts:619), so a client that has exhausted
its budget receives 429 from GET /health rather than the healthy
snapshot.  Ten prior requests at time 0 fill the window; the eleventh
request, a GET /health at the same instant, is answered 429.  This
refutes the claim that every GET /health request receives the healthy
snapshot regardless of the prior requests of the client. -/
theorem health_endpoint_rate_limited_cex :
    (handleFetch ⟨false, 8888, "", .osTts, fun _ => "os tts", "", false, true⟩
        "GET" "/health" 0
        (runRequests ⟨false, 8888, "", .osTts, fun _ => "os tts", "", false, true⟩
          (List.replicate 10 ("GET", "/health", 0)) none)).1 =
      HttpResponse.rateLimited429 := by decide

/-- C4 (amended): every /health request that is not an OPTIONS preflight
and that passes the rate limiter is answered with the 200 snapshot whose
body carries status healthy, the bound port, the human description of the
selected engine (the cloud engine when the credential is configured), the
selected local engine, the engine preference, whether the cloud
credential is configured, the default voice id and the platform tag; a
rate-limited client receives 429 instead. -/
theorem health_endpoint_spec (ctx : ServerCtx) (now : Nat) (record : Option RLRecord)
    (hadm : (checkRateLimit now record).1 = true) :
    (handleFetch ctx "GET" "/health" now record).1 = healthResponse ctx ∧
    healthResponse ctx = HttpResponse.health200
      { status := "healthy"
        port := ctx.port
        voice_system :=
          if ctx.hasApiKey then "ElevenLabs (cloud)"
          else ctx.engineDescriptions ctx.selectedLocalEngine
        selected_local_engine := ctx.selectedLocalEngine
        tts_engine_preference := ctx.enginePref
        elevenlabs_configured := ctx.hasApiKey
        default_voice_id := ctx.defaultVoiceId
        platform := if ctx.isMacos then "darwin" else if ctx.isLinux then "linux" else "other" } ∧
    ((checkRateLimit now record).1 = false →
      (handleFetch ctx "GET" "/health" now record).1 = HttpResponse.rateLimited429) := by
  refine ⟨?_, rfl, ?_⟩
  · unfold handleFetch
    rw [if_neg (by decide : ¬ ("GET" : String) = "OPTIONS")]
    dsimp only
    rw [if_neg (by rw [hadm]; exact fun h => Bool.noConfusion h)]
    rw [if_neg (by rintro ⟨h, -⟩; exact absurd h (by decide)),
      if_neg (by rintro ⟨h, -⟩; exact absurd h (by decide)),
      if_pos rfl]
  · intro hden
    rw [hadm] at hden
    cases hden

/-- C4 witness: a fresh client gets the healthy snapshot. -/
theorem health_endpoint_spec_witness :
    (handleFetch ⟨false, 8888, "", .osTts, fun _ => "os tts", "", false, true⟩
        "GET" "/health" 0 none).1 =
      healthResponse ⟨false, 8888, "", .osTts, fun _ => "os tts", "", false, true⟩ :=
  (health_endpoint_spec ⟨false, 8888, "", .osTts, fun _ => "os tts", "", false, true⟩
    0 none rfl).1

/-! ## Claim C5 -/

/-- Unfolding: playNextSync returns immediately while a playback is in
flight. -/
theorem playNextSync_eq_of_playing (s : PipeState) (h : s.isPlaying = true) :
    playNextSync s = s := by
  rw [playNextSync.eq_def, if_pos h]

/-- Unfolding: playNextSync returns when the cursor slot is missing. -/
theorem playNextSync_eq_of_none (s : PipeState) (h1 : s.isPlaying = false)
    (h2 : s.slots s.cur = none) : playNextSync s = s := by
  rw [playNextSync.eq_def, if_neg (by rw [h1]; exact fun h => Bool.noConfusion h), h2]

/-- Unfolding: playNextSync starts a playback on a usable cursor slot. -/
theorem playNextSync_eq_of_start (s : PipeState) (h1 : s.isPlaying = false)
    (h2 : s.slots s.cur = some true) :
    playNextSync s =
      { s with
          isPlaying := true, active := s.cur :: s.active,
          trace := PipeEv.playStart s.cur :: s.trace } := by
  rw [playNextSync.eq_def, if_neg (by rw [h1]; exact fun h => Bool.noConfusion h), h2]
  dsimp only
  rw [if_pos rfl]

/-- Unfolding: playNextSync skips a zero-length slot and continues. -/
theorem playNextSync_eq_of_skip (s : PipeState) (h1 : s.isPlaying = false)
    (h2 : s.slots s.cur = some false) (h3 : s.cur + 1 < s.n) :
    playNextSync s = playNextSync { s with cur := s.cur + 1 } := by
  rw [playNextSync.eq_def, if_neg (by rw [h1]; exact fun h => Bool.noConfusion h), h2]
  dsimp only
  rw [if_neg (fun hh => Bool.noConfusion hh), if_pos h3]

/-- Unfolding: playNextSync flags playback completion when skipping past
the last slot. -/
theorem playNextSync_eq_of_skip_end (s : PipeState) (h1 : s.isPlaying = false)
    (h2 : s.slots s.cur = some false) (h3 : ¬ s.cur + 1 < s.n) :
    playNextSync s = { s with cur := s.cur + 1, playDone := true } := by
  rw [playNextSync.eq_def, if_neg (by rw [h1]; exact fun h => Bool.noConfusion h), h2]
  dsimp only
  rw [if_neg (fun hh => Bool.noConfusion hh), if_neg h3]

/-- Decompose an equation between a cons and an append around a cell. -/
theorem cons_eq_append_cases {α : Type} (e x : α) (t pre post : List α)
    (h : e :: t = pre ++ x :: post) :
    (pre = [] ∧ e = x ∧ post = t) ∨
      ∃ pre2, pre = e :: pre2 ∧ t = pre2 ++ x :: post := by
  cases pre with
  | nil =>
    rw [List.nil_append, List.cons.injEq] at h
    exact Or.inl ⟨rfl, h.1, h.2.symm⟩
  | cons a pre2 =>
    rw [List.cons_append, List.cons.injEq] at h
    exact Or.inr ⟨pre2, by rw [h.1], h.2⟩

/-- The start-moment record of the invariant survives appending an event
that is not a playback start. -/
theorem startsClean_cons_of_not_start (e : PipeEv) (tr : List PipeEv)
    (he : isStartEv e = false)
    (h : ∀ pre i post, tr = pre ++ PipeEv.playStart i :: post →
      countStarts post = countEnds post ∧ PipeEv.genEnd i true ∈ post ∧
      ∀ j, PipeEv.playStart j ∈ post → j < i) :
    ∀ pre i post, e :: tr = pre ++ PipeEv.playStart i :: post →
      countStarts post = countEnds post ∧ PipeEv.genEnd i true ∈ post ∧
      ∀ j, PipeEv.playStart j ∈ post → j < i := by
  intro pre i post heq
  rcases cons_eq_append_cases e (PipeEv.playStart i) tr pre post heq with
    ⟨-, hei, -⟩ | ⟨pre2, -, htr⟩
  · rw [hei] at he
    cases he
  · exact h pre2 i post htr

/-- The start-moment record of the invariant after appending a playback
start whose preconditions hold. -/
theorem startsClean_cons_start (i : Nat) (tr : List PipeEv)
    (hold : ∀ pre k post, tr = pre ++ PipeEv.playStart k :: post →
      countStarts post = countEnds post ∧ PipeEv.genEnd k true ∈ post ∧
      ∀ j, PipeEv.playStart j ∈ post → j < k)
    (hbal : countStarts tr = countEnds tr)
    (hgen : PipeEv.genEnd i true ∈ tr)
    (hlt : ∀ j, PipeEv.playStart j ∈ tr → j < i) :
    ∀ pre k post, PipeEv.playStart i :: tr = pre ++ PipeEv.playStart k :: post →
      countStarts post = countEnds post ∧ PipeEv.genEnd k true ∈ post ∧
      ∀ j, PipeEv.playStart j ∈ post → j < k := by
  intro pre k post heq
  rcases cons_eq_append_cases (PipeEv.playStart i) (PipeEv.playStart k) tr pre post heq with
    ⟨-, hei, hpost⟩ | ⟨pre2, -, htr⟩
  · obtain rfl : i = k := by cases hei; rfl
    subst hpost
    exact ⟨hbal, hgen, hlt⟩
  · exact hold pre2 k post htr

/-- A list of length at most one containing an element is that
singleton. -/
theorem eq_singleton_of_mem_of_length_le {α : Type} (l : List α) (i : α)
    (hlen : l.length ≤ 1) (hi : i ∈ l) : l = [i] := by
  cases l with
  | nil => cases hi
  | cons a t =>
    cases t with
    | nil =>
      rcases List.mem_singleton.mp hi with rfl
      rfl
    | cons b t2 => simp at hlen

/-- playNextSync preserves the pipeline invariant. -/
theorem playNextSync_inv (s : PipeState) (h : PipeInv s) : PipeInv (playNextSync s) := by
  induction s using playNextSync.induct with
  | case1 x hp => rw [playNextSync_eq_of_playing x hp]; exact h
  | case2 x hp hn =>
    rw [playNextSync_eq_of_none x (by simpa using hp) hn]
    exact h
  | case3 x hp hs =>
    rw [playNextSync_eq_of_start x (by simpa using hp) hs]
    have hactive : x.active = [] := by
      by_contra hne
      exact hp (h.playingIff.mpr hne)
    refine ⟨?_, ?_, ?_, ?_, ?_, ?_, ?_⟩
    · simp [hactive]
    · simp
    · simp only [countStarts, countEnds, List.countP_cons, hactive]
      have hb := h.balance
      rw [hactive] at hb
      simp [isStartEv, isEndEv, countStarts, countEnds] at hb ⊢
      omega
    · intro i hi
      rw [hactive] at hi
      rcases List.mem_singleton.mp hi with rfl
      rfl
    · intro i b hb
      exact List.mem_cons_of_mem _ (h.slotLog i b hb)
    · intro j hj
      rcases List.mem_cons.mp hj with heq | hmem
      · obtain rfl : j = x.cur := by cases heq; rfl
        right
        rw [hactive]
        exact List.mem_singleton.mpr rfl
      · rcases h.startsLt j hmem with hlt | hin
        · exact Or.inl hlt
        · rw [hactive] at hin
          cases hin
    · apply startsClean_cons_start
      · exact h.startsClean
      · have hb := h.balance
        rw [hactive] at hb
        simpa using hb
      · exact h.slotLog x.cur true hs
      · intro j hj
        rcases h.startsLt j hj with hlt | hin
        · exact hlt
        · rw [hactive] at hin
          cases hin
  | case4 x hp ok hs hok hn ih =>
    obtain rfl : ok = false := by cases ok <;> simp_all
    rw [playNextSync_eq_of_skip x (by simpa using hp) hs hn]
    apply ih
    have hactive : x.active = [] := by
      by_contra hne
      exact hp (h.playingIff.mpr hne)
    refine ⟨?_, ?_, ?_, ?_, ?_, ?_, ?_⟩ <;> dsimp only
    · exact h.activeLen
    · exact h.playingIff
    · exact h.balance
    · intro i hi
      rw [hactive] at hi
      cases hi
    · exact h.slotLog
    · intro j hj
      rcases h.startsLt j hj with hlt | hin
      · exact Or.inl (by omega)
      · exact Or.inr hin
    · exact h.startsClean
  | case5 x hp ok hs hok hn =>
    obtain rfl : ok = false := by cases ok <;> simp_all
    rw [playNextSync_eq_of_skip_end x (by simpa using hp) hs hn]
    have hactive : x.active = [] := by
      by_contra hne
      exact hp (h.playingIff.mpr hne)
    refine ⟨?_, ?_, ?_, ?_, ?_, ?_, ?_⟩ <;> dsimp only
    · exact h.activeLen
    · exact h.playingIff
    · exact h.balance
    · intro i hi
      rw [hactive] at hi
      cases hi
    · exact h.slotLog
    · intro j hj
      rcases h.startsLt j hj with hlt | hin
      · exact Or.inl (by omega)
      · exact Or.inr hin
    · exact h.startsClean

/-- The pipeline invariant only reads the playback-related fields. -/
theorem PipeInv_of_fields (a b : PipeState) (h : PipeInv a)
    (hact : b.active = a.active) (hpl : b.isPlaying = a.isPlaying)
    (htr : b.trace = a.trace) (hcur : b.cur = a.cur) (hsl : b.slots = a.slots) :
    PipeInv b := by
  refine ⟨?_, ?_, ?_, ?_, ?_, ?_, ?_⟩ <;> simp only [hact, hpl, htr, hcur, hsl]
  · exact h.activeLen
  · exact h.playingIff
  · exact h.balance
  · exact h.activeCur
  · exact h.slotLog
  · exact h.startsLt
  · exact h.startsClean

/-- A settling generation preserves the pipeline invariant. -/
theorem genStep_inv (s : PipeState) (ok : Bool) (h : PipeInv s) :
    PipeInv (genStepResult s ok) := by
  have hinv1 : PipeInv { s with
      slots := fun j => if j = s.genIdx then some ok else s.slots j,
      genBusy := false,
      trace := PipeEv.genEnd s.genIdx ok :: s.trace } := by
    refine ⟨?_, ?_, ?_, ?_, ?_, ?_, ?_⟩ <;> dsimp only
    · exact h.activeLen
    · exact h.playingIff
    · simp only [countStarts, countEnds, List.countP_cons]
      have e1 : isStartEv (PipeEv.genEnd s.genIdx ok) = false := rfl
      have e2 : isEndEv (PipeEv.genEnd s.genIdx ok) = false := rfl
      rw [e1, e2]
      simp only [Bool.false_eq_true, if_false, Nat.add_zero]
      exact h.balance
    · exact h.activeCur
    · intro i b hb
      by_cases hij : i = s.genIdx
      · subst hij
        rw [if_pos rfl] at hb
        cases hb
        exact List.mem_cons_self _ _
      · rw [if_neg hij] at hb
        exact List.mem_cons_of_mem _ (h.slotLog i b hb)
    · intro j hj
      rcases List.mem_cons.mp hj with heq | hmem
      · cases heq
      · exact h.startsLt j hmem
    · exact startsClean_cons_of_not_start _ _ rfl h.startsClean
  unfold genStepResult
  dsimp only
  have hinv2 : PipeInv (if ok = true ∧ s.isPlaying = false then
      playNextSync { s with
        slots := fun j => if j = s.genIdx then some ok else s.slots j,
        genBusy := false,
        trace := PipeEv.genEnd s.genIdx ok :: s.trace }
    else { s with
        slots := fun j => if j = s.genIdx then some ok else s.slots j,
        genBusy := false,
        trace := PipeEv.genEnd s.genIdx ok :: s.trace }) := by
    split
    · exact playNextSync_inv _ hinv1
    · exact hinv1
  split
  · exact PipeInv_of_fields _ _ hinv2 rfl rfl rfl rfl rfl
  · exact PipeInv_of_fields _ _ hinv2 rfl rfl rfl rfl rfl

/-- A player exit preserves the pipeline invariant. -/
theorem playStep_inv (s : PipeState) (i : Nat) (h : PipeInv s) (hi : i ∈ s.active) :
    PipeInv (playStepResult s i) := by
  have hsingle : s.active = [i] := eq_singleton_of_mem_of_length_le _ _ h.activeLen hi
  have hcur : s.cur = i := h.activeCur i hi
  have herase : s.active.erase i = [] := by
    rw [hsingle]
    simp
  have hinv1 : PipeInv { s with
      isPlaying := false, active := s.active.erase i, cur := s.cur + 1,
      trace := PipeEv.playEnd i :: s.trace } := by
    refine ⟨?_, ?_, ?_, ?_, ?_, ?_, ?_⟩ <;> dsimp only
    · rw [herase]
      simp
    · rw [herase]
      simp
    · have hb := h.balance
      rw [hsingle] at hb
      simp only [countStarts, countEnds, List.countP_cons]
      have e1 : isStartEv (PipeEv.playEnd i) = false := rfl
      have e2 : isEndEv (PipeEv.playEnd i) = true := rfl
      rw [e1, e2, herase]
      simp only [List.length_cons, List.length_nil] at hb ⊢
      simp only [countStarts, countEnds] at hb
      simp
      omega
    · intro k hk
      rw [herase] at hk
      cases hk
    · intro k b hb
      exact List.mem_cons_of_mem _ (h.slotLog k b hb)
    · intro j hj
      rcases List.mem_cons.mp hj with heq | hmem
      · cases heq
      · rcases h.startsLt j hmem with hlt | hin
        · exact Or.inl (by omega)
        · rw [hsingle] at hin
          rcases List.mem_singleton.mp hin with rfl
          exact Or.inl (by omega)
    · exact startsClean_cons_of_not_start _ _ rfl h.startsClean
  unfold playStepResult
  dsimp only
  split
  · exact playNextSync_inv _ hinv1
  · exact PipeInv_of_fields _ _ hinv1 rfl rfl rfl rfl rfl

/-- The initial pipeline state satisfies the invariant. -/
theorem initPipeState_inv (n : Nat) : PipeInv (initPipeState n) := by
  refine ⟨?_, ?_, ?_, ?_, ?_, ?_, ?_⟩ <;> dsimp only [initPipeState]
  · simp
  · simp
  · simp [countStarts, countEnds]
  · intro i hi
    cases hi
  · intro i b hb
    cases hb
  · intro j hj
    cases hj
  · intro pre i post heq
    exact absurd heq.symm (by simp)

/-- Every reachable pipeline state satisfies the invariant. -/
theorem pipeReach_inv (s : PipeState) (h : PipeReach s) : PipeInv s := by
  induction h with
  | init n hn => exact initPipeState_inv n
  | step s s2 h1 h2 ih =>
    cases h2 with
    | gen ok hbusy => exact genStep_inv s ok ih
    | play i hi => exact playStep_inv s i ih hi

/-- C5: in every reachable state of the progressive pipeline, at most one
playback is open (never two concurrently), and at the instant a playback
of sentence i starts, the earlier trace is balanced — every previously
started player has already exited — contains the successful generation of
sentence i, and only starts of earlier sentences; so playback of sentence
i begins no earlier than the exit of the previous player and no earlier
than the completion of generation of i. -/
theorem progressive_playback_ordering (s : PipeState) (h : PipeReach s) :
    s.active.length ≤ 1 ∧
    (∀ pre i post, s.trace = pre ++ PipeEv.playStart i :: post →
      countStarts post = countEnds post ∧
      PipeEv.genEnd i true ∈ post ∧
      ∀ j, PipeEv.playStart j ∈ post → j < i) := by
  have hinv := pipeReach_inv s h
  exact ⟨hinv.activeLen, hinv.startsClean⟩

/-- C5 witness: the ordering property at a concrete reachable state, two
sentences with the first generation settled. -/
theorem progressive_playback_ordering_witness :
    (genStepResult (initPipeState 2) true).active.length ≤ 1 :=
  (progressive_playback_ordering (genStepResult (initPipeState 2) true)
    (PipeReach.step _ _ (PipeReach.init 2 (by omega)) (PipeStep.gen _ true rfl))).1
